import Mathlib

/-!
# Verification of the json-viewer table projection core

Shallow embedding of the table-view core of `src/public/script.js`:
`computeTableSections`, `buildTableProjection`, `applyCellUpdate`,
`parseCellValue`, and the column collection of `renderCurrentSection`.

Modelling conventions:
* A JavaScript JSON value is `Json` below; JS `null` is `Json.null` and an
  absent (`null`) working document is likewise `Json.null` (the script
  initialises `workingJson = null`).
* JS numbers are modelled exactly: `JNum` is an exact rational (a
  normalised numerator/denominator pair) together with the special values
  `+Infinity`, `-Infinity` and `NaN` (float rounding is idealised away;
  every number appearing in the claims is exactly representable).
* JS objects are association lists in insertion order (`Object.entries`,
  `Object.keys` and object spread enumerate own properties in that order for
  the string keys used here).
* In-place mutation of the document is modelled by rebuilding the document
  along the mutated path; `Option` results model thrown `TypeError`s
  (`none` = the statement threw).
-/

/-- A JavaScript number: an exact rational (kept as a normalised
numerator/denominator pair with positive denominator — float rounding is
idealised away), an infinity, or `NaN`. All finite values are produced
through `JNum.mkFinite`, which normalises. -/
inductive JNum where
  | finite (n : Int) (d : Nat)
  | posInf
  | negInf
  | nan
deriving DecidableEq, Repr

/-- Euclid's algorithm with explicit fuel, so that it is structurally
recursive and evaluates inside the kernel. -/
def gcdFuel : Nat → Nat → Nat → Nat
  | 0, _, b => b
  | _+1, 0, b => b
  | f+1, a+1, b => gcdFuel f (b % (a+1)) (a+1)

/-- Greatest common divisor (`gcdFuel` with enough fuel: Euclid on `(a, b)`
takes at most `a + 1` steps). -/
def kgcd (a b : Nat) : Nat := gcdFuel (a + 2) a b

/-- Build a finite JS number in lowest terms from a numerator and a
(positive) denominator. -/
def JNum.mkFinite (n : Int) (d : Nat) : JNum :=
  let g := kgcd n.natAbs d
  .finite (n / (g : Int)) (d / g)

/-- JS `Number.isNaN`. -/
def JNum.isNaN : JNum → Bool
  | .nan => true
  | _ => false

/-- JS unary minus on numbers (`-NaN = NaN`). -/
def JNum.neg : JNum → JNum
  | .finite n d => .finite (-n) d
  | .posInf => .negInf
  | .negInf => .posInf
  | .nan => .nan

/-- A JavaScript JSON value. JS `null` is `Json.null`; objects are
association lists of own properties in insertion order. -/
inductive Json where
  | null : Json
  | bool : Bool → Json
  | num : JNum → Json
  | str : String → Json
  | arr : List Json → Json
  | obj : List (String × Json) → Json
deriving Repr


/-- Shorthand for an integer JS number. -/
def Json.jint (n : Int) : Json := Json.num (JNum.finite n 1)

/-- JS truthiness: `null`, `false`, `±0`, `NaN` and `""` are falsy; every
object and array (even empty) is truthy. -/
def jsTruthy : Json → Bool
  | .null => false
  | .bool b => b
  | .num (.finite n _) => n ≠ 0
  | .num .nan => false
  | .num _ => true
  | .str s => s ≠ ""
  | .arr _ => true
  | .obj _ => true

/-- JS `typeof x === "object"`: true for objects, arrays and `null`. -/
def jsTypeofObject : Json → Bool
  | .null => true
  | .arr _ => true
  | .obj _ => true
  | _ => false

/-- The test `x && typeof x === "object"` used throughout the script:
a non-null value of object type, i.e. an array or a plain object. -/
def truthyObjType : Json → Bool
  | .arr _ => true
  | .obj _ => true
  | _ => false

/-- The JS whitespace characters stripped by `String.prototype.trim` and by
`Number(...)` (WhiteSpace ∪ LineTerminator). -/
def isJsWhitespace (c : Char) : Bool :=
  c = ' ' ∨ c = '\t' ∨ c = '\n' ∨ c = '\r' ∨ c = '\x0b' ∨ c = '\x0c' ∨
  c = '\xa0' ∨ c = '\u2028' ∨ c = '\u2029' ∨ c = '\uFEFF'

/-- Strip JS whitespace from both ends of a character list. -/
def trimWsList (cs : List Char) : List Char :=
  ((cs.dropWhile isJsWhitespace).reverse.dropWhile isJsWhitespace).reverse

/-- JS `String.prototype.trim`. -/
def jsTrim (s : String) : String := String.mk (trimWsList s.toList)

/-- Decimal digit test (`'0'` to `'9'`, i.e. code points 48 to 57);
equivalent to `Char.isDigit`, stated on `Char.toNat` for proof convenience. -/
def isDigitChar (c : Char) : Bool := 48 ≤ c.toNat ∧ c.toNat ≤ 57

/-- Numeric value of a list of decimal digits. -/
def natOfDigits (ds : List Char) : Nat :=
  ds.foldl (fun a c => a * 10 + (c.toNat - 48)) 0

/-- Value of one hexadecimal digit. -/
def hexVal (c : Char) : Nat :=
  if isDigitChar c then c.toNat - 48
  else if 'a' ≤ c ∧ c ≤ 'f' then c.toNat - 97 + 10
  else c.toNat - 65 + 10

def isHexDigitChar (c : Char) : Bool :=
  isDigitChar c ∨ ('a' ≤ c ∧ c ≤ 'f') ∨ ('A' ≤ c ∧ c ≤ 'F')

def isOctDigitChar (c : Char) : Bool := '0' ≤ c ∧ c ≤ '7'

def isBinDigitChar (c : Char) : Bool := c = '0' ∨ c = '1'

/-- Numeric value of digits in base `b` under digit valuation `val`. -/
def natOfBase (b : Nat) (val : Char → Nat) (ds : List Char) : Nat :=
  ds.foldl (fun a c => a * b + val c) 0

def isExpChar (c : Char) : Bool := c = 'e' ∨ c = 'E'

/-- Exponent part of a decimal literal, after the `e`/`E`. -/
def parseExpPart : List Char → Option Int
  | [] => none
  | '+' :: ds => if ds ≠ [] ∧ ds.all isDigitChar then some (natOfDigits ds : Int) else none
  | '-' :: ds => if ds ≠ [] ∧ ds.all isDigitChar then some (-(natOfDigits ds : Int)) else none
  | ds => if ds.all isDigitChar then some (natOfDigits ds : Int) else none

/-- Mantissa of a decimal literal: `digits [. digits]` or `. digits`,
with at least one digit overall. Returns the value as an unreduced
numerator/denominator pair (the denominator a power of ten). -/
def parseMantissa (cs : List Char) : Option (Nat × Nat) :=
  match cs.span isDigitChar with
  | (intds, rest) =>
    match rest with
    | [] => if intds = [] then none else some (natOfDigits intds, 1)
    | '.' :: fds =>
        if fds.all isDigitChar ∧ (intds ≠ [] ∨ fds ≠ []) then
          some (natOfDigits intds * 10 ^ fds.length + natOfDigits fds, 10 ^ fds.length)
        else none
    | _ => none

/-- A full decimal literal `mantissa [e exponent]`; `NaN` when ill-formed. -/
def decimalOrNaN (cs : List Char) : JNum :=
  match cs.span (fun c => ¬ isExpChar c) with
  | (mant, []) =>
    match parseMantissa mant with
    | some (n, d) => JNum.mkFinite (n : Int) d
    | none => .nan
  | (mant, _ :: expcs) =>
    match parseMantissa mant, parseExpPart expcs with
    | some (n, d), some e =>
        if 0 ≤ e then JNum.mkFinite ((n * 10 ^ e.toNat : Nat) : Int) d
        else JNum.mkFinite (n : Int) (d * 10 ^ (-e).toNat)
    | _, _ => .nan

/-- An unsigned numeric body: `Infinity`, a hex/octal/binary integer
literal, or a decimal literal. -/
def parseUnsignedBody (cs : List Char) : JNum :=
  if cs = "Infinity".toList then .posInf
  else match cs with
    | '0' :: c :: rest =>
      if c = 'x' ∨ c = 'X' then
        (if rest ≠ [] ∧ rest.all isHexDigitChar then .finite (natOfBase 16 hexVal rest : Int) 1 else .nan)
      else if c = 'o' ∨ c = 'O' then
        (if rest ≠ [] ∧ rest.all isOctDigitChar then .finite (natOfBase 8 hexVal rest : Int) 1 else .nan)
      else if c = 'b' ∨ c = 'B' then
        (if rest ≠ [] ∧ rest.all isBinDigitChar then .finite (natOfBase 2 hexVal rest : Int) 1 else .nan)
      else decimalOrNaN cs
    | _ => decimalOrNaN cs

/-- A signed body (after a `+`/`-` sign only `Infinity` or a decimal
literal is legal, not hex/octal/binary). -/
def parseSignedBody (cs : List Char) : JNum :=
  if cs = "Infinity".toList then .posInf else decimalOrNaN cs

/-- Modelled from the spec of ECMAScript `Number(string)` (the built-in used
by `parseCellValue`, not code of this repository): whitespace-only strings
are `0`, otherwise the string must be exactly a signed `StringNumericLiteral`;
anything else is `NaN`. Floating-point rounding is idealised to exact
rationals. -/
def jsStringToNumber (s : String) : JNum :=
  let t := trimWsList s.toList
  match t with
  | [] => .finite 0 1
  | '+' :: rest => parseSignedBody rest
  | '-' :: rest => (parseSignedBody rest).neg
  | _ => parseUnsignedBody t

/-- The raw value handed to `applyCellUpdate`: a checkbox delivers a
boolean, a text input delivers a string. -/
inductive CellInput where
  | bool (b : Bool)
  | str (s : String)
deriving DecidableEq, Repr

/-- Function `parseCellValue` (script.js, "8) Try to preserve types"): booleans pass
through; otherwise trim, map literal `"true"`/`"false"` to booleans, use the
numeric parse when it is not `NaN` and the trimmed string is non-empty, and
fall back to the trimmed string. -/
def parseCellValue : CellInput → Json
  | .bool b => .bool b
  | .str value =>
    let trimmed := jsTrim value
    if trimmed = "true" then .bool true
    else if trimmed = "false" then .bool false
    else
      let num := jsStringToNumber trimmed
      if ¬ num.isNaN ∧ trimmed ≠ "" then .num num
      else .str trimmed


/-- Canonical array-index strings (`"0"`, `"1"`, ...): a JS array element
access `a[k]` hits an element exactly when `k` is the canonical decimal
form of an index. -/
def parseArrayIndex (s : String) : Option Nat :=
  match s.toList with
  | [] => none
  | c :: cs =>
      if (c :: cs).all isDigitChar ∧ (cs = [] ∨ c ≠ '0') then
        some (natOfDigits (c :: cs))
      else none

/-- Shorthand for an integer-indexed JS number is not needed; this is the
JS property read `j[k]` (`none` = `undefined`). Arrays answer their
canonical index strings and `"length"`; reads on primitives and `null`
yield no value (a read on `null` throws in JS — every context below that
reads `null` propagates failure). -/
def getProp (j : Json) (k : String) : Option Json :=
  match j with
  | .obj fields => List.lookup k fields
  | .arr xs =>
      if k = "length" then some (Json.jint xs.length)
      else
        match parseArrayIndex k with
        | some i => xs[i]?
        | none => none
  | _ => none

/-- JS property write `obj[k] = v` on a plain object: overwrite in place
when the key exists (keeping its position in insertion order), append
otherwise. -/
def objSet (fields : List (String × Json)) (k : String) (v : Json) : List (String × Json) :=
  if fields.any (fun p => p.1 = k) then
    fields.map (fun p => if p.1 = k then (k, v) else p)
  else fields ++ [(k, v)]

/-- JS `Object.entries` / object-spread enumeration of own enumerable
properties: the fields of an object, or the index-string entries of an
array. -/
def ownEntries : Json → List (String × Json)
  | .obj fields => fields
  | .arr xs => xs.enum.map (fun p => (toString p.1, p.2))
  | _ => []

/-- The synthesized row `{__key: key, ...value}` of an object-backed
section: start from the synthetic `__key` field and spread the value's own
entries over it. A later property with the same name overwrites in place,
so an own `__key` field of `value` wins over the synthetic one. -/
def mkObjectRow (key : String) (value : Json) : Json :=
  .obj ((ownEntries value).foldl (fun acc p => objSet acc p.1 p.2) [("__key", .str key)])

/-- One entry of the `sections` list built by `computeTableSections`. -/
structure TableSection where
  id : String
  label : String
  path : List String
  json : Json
deriving Repr

def rootLabel (n : Nat) : String := "Root (array with " ++ toString n ++ " items)"

def arrayLabel (key : String) (n : Nat) : String :=
  key ++ " (array with " ++ toString n ++ " items)"

def objectLabel (key : String) (n : Nat) : String :=
  key ++ " (object with " ++ toString n ++ " entries)"

/-- The test `Object.values(value).some((v) => v && typeof v === "object")`. -/
def hasObjectValues (fields : List (String × Json)) : Bool :=
  fields.any (fun p => truthyObjType p.2)

/-- Sections contributed by one top-level property `(key, value)` of a root
object — cases 2.a and 2.b of `computeTableSections`: a non-empty array
whose first element has JS object type, or (else) a plain object with at
least one array-or-object value. -/
def sectionsForEntry (key : String) (value : Json) : List TableSection :=
  match value with
  | .arr (x :: rest) =>
      if jsTypeofObject x then [⟨key, arrayLabel key (rest.length + 1), [key], value⟩]
      else []
  | .obj fields =>
      if hasObjectValues fields then [⟨key, objectLabel key fields.length, [key], value⟩]
      else []
  | _ => []

/-- Function `computeTableSections` (script.js): a falsy document yields no
sections; a non-empty array whose first element satisfies
`typeof === "object"` (which includes `null`) yields the `"__root__"`
section; a root object contributes the sections of its top-level
properties in key order. -/
def computeTableSections (rootJson : Json) : List TableSection :=
  if jsTruthy rootJson then
    (match rootJson with
     | .arr (x :: rest) =>
         if jsTypeofObject x then
           [⟨"__root__", rootLabel (rest.length + 1), [], rootJson⟩]
         else []
     | _ => []) ++
    (match rootJson with
     | .obj fields => fields.flatMap (fun p => sectionsForEntry p.1 p.2)
     | _ => [])
  else []

/-- One `rowMapping` entry `{parentPath, index, key}`: `index` is set for
array-backed rows, `key` for object-backed rows. -/
structure RowMap where
  parentPath : List String
  index : Option Nat
  key : Option String
deriving DecidableEq, Repr

/-- Function `buildTableProjection` (script.js): each array element (at its source
index), respectively each own property value, that passes
`x && typeof x === "object"` contributes one row and one mapping entry;
the source pushes to `rows` and `mapping` in lock-step, rendered here as a
pair of index-aligned lists. -/
def buildTableProjection (json : Json) (sectionPath : List String) :
    List Json × List RowMap :=
  match json with
  | .arr xs =>
      ((xs.enum.filter (fun p => truthyObjType p.2)).map (fun p => p.2),
       (xs.enum.filter (fun p => truthyObjType p.2)).map
         (fun p => ⟨sectionPath, some p.1, none⟩))
  | .obj fields =>
      ((fields.filter (fun p => truthyObjType p.2)).map (fun p => mkObjectRow p.1 p.2),
       (fields.filter (fun p => truthyObjType p.2)).map
         (fun p => ⟨sectionPath, none, some p.1⟩))
  | _ => ([], [])

/-- Fold new column names into the accumulator, keeping first-appearance
order (a JS `Set` preserves insertion order). -/
def addColumns (acc : List String) (ks : List String) : List String :=
  ks.foldl (fun a k => if a.contains k then a else a ++ [k]) acc

/-- Column collection of `renderCurrentSection`: the union of own keys over
all rows that pass `row && typeof row === "object"`, in first-appearance
order. -/
def collectColumns (rows : List Json) : List String :=
  rows.foldl
    (fun acc row =>
      if truthyObjType row then addColumns acc ((ownEntries row).map Prod.fst) else acc)
    []

/-- JS property write `j[k] = v`, returning the updated value (`none` = the
assignment threw). A plain object updates or appends; a canonical in-range
index of an array updates that element (the app never writes out-of-range
indices, so array growth is not modelled, and a non-index array property
write is rendered as a no-op — such a property would not survive
`JSON.stringify`); writing on `null` throws; writing on another primitive
is the sloppy-mode silent no-op. -/
def setProp (j : Json) (k : String) (v : Json) : Option Json :=
  match j with
  | .obj fields => some (.obj (objSet fields k v))
  | .arr xs =>
      match parseArrayIndex k with
      | some i => if i < xs.length then some (.arr (xs.set i v)) else none
      | none => some (.arr xs)
  | .null => none
  | j => some j

/-- The write `parent[member][column] = v` performed by `applyCellUpdate`,
where `member` is the decimal form of `info.index`, or `info.key`. -/
def setMemberField (parent : Json) (member column : String) (v : Json) : Option Json :=
  match getProp parent member with
  | some target =>
      match setProp target column v with
      | some target2 => setProp parent member target2
      | none => none
  | none => none

/-- Walk `parentPath` exactly as `applyCellUpdate` does (`parent =
parent[key]` at each step), apply the mutation `f` to the final parent, and
rebuild the spine — the pure rendering of in-place mutation. `none` = an
access or assignment on the way threw. -/
def updateAtPath (j : Json) (path : List String) (f : Json → Option Json) : Option Json :=
  match path with
  | [] => f j
  | k :: rest =>
    match j with
    | .obj fields =>
        match List.lookup k fields with
        | some child => (updateAtPath child rest f).map (fun c2 => .obj (objSet fields k c2))
        | none => none
    | .arr xs =>
        match parseArrayIndex k with
        | some i =>
          match xs[i]? with
          | some child => (updateAtPath child rest f).map (fun c2 => .arr (xs.set i c2))
          | none => none
        | none => none
    | _ => none

/-- The raw walk of `applyCellUpdate` (`parent = parent[key]` step by
step), reading arrays only through canonical index strings — exactly the
reads `updateAtPath` performs, without rebuilding. -/
def walkTo (j : Json) : List String → Option Json
  | [] => some j
  | k :: rest =>
    match j with
    | .obj fields =>
        match List.lookup k fields with
        | some child => walkTo child rest
        | none => none
    | .arr xs =>
        match parseArrayIndex k with
        | some i =>
          match xs[i]? with
          | some child => walkTo child rest
          | none => none
        | none => none
    | _ => none

/-- Chained property read along a path (`none` as soon as a read fails). -/
def readPath (j : Json) : List String → Option Json
  | [] => some j
  | k :: rest =>
    match getProp j k with
    | some c => readPath c rest
    | none => none

/-- Function `applyCellUpdate` (script.js): look up the mapping entry, return the
document unchanged when the entry or the (truthy) document is missing,
otherwise walk `parentPath` and assign the coerced value through
`parent[info.index][column]` or `parent[info.key][column]`. `some d` is a
completed handler leaving document state `d`; `none` is a thrown
`TypeError`. A mapping entry with both `index` and `key` null writes
nothing (the projection never produces one). -/
def applyCellUpdate (workingJson : Json) (rowMapping : List RowMap)
    (rowIndex : Nat) (column : String) (newValue : CellInput) : Option Json :=
  match rowMapping[rowIndex]? with
  | none => some workingJson
  | some info =>
    if jsTruthy workingJson then
      match info.index with
      | some i =>
          updateAtPath workingJson info.parentPath
            (fun parent => setMemberField parent (toString i) column (parseCellValue newValue))
      | none =>
        match info.key with
        | some k =>
            updateAtPath workingJson info.parentPath
              (fun parent => setMemberField parent k column (parseCellValue newValue))
        | none => some workingJson
    else some workingJson

/-- Two paths diverge when neither is a prefix of the other: they disagree
at some position where both are defined. -/
def pathDiverges : List String → List String → Bool
  | [], _ => false
  | _, [] => false
  | a :: w, b :: q => if a = b then pathDiverges w q else true

/-- Scenario A document. -/
def docA : Json :=
  .obj [("items", .arr [
    .obj [("a", .jint 1), ("b", .str "x")],
    .obj [("a", .jint 2), ("b", .str "y")]])]

/-! ## Helper lemmas -/

theorem sectionsForEntry_path {s : TableSection} {k : String} {v : Json}
    (h : s ∈ sectionsForEntry k v) : s.path = [k] := by
  cases v with
  | arr l =>
    cases l with
    | nil => simp [sectionsForEntry] at h
    | cons x rest =>
      by_cases hx : jsTypeofObject x = true
      · simp [sectionsForEntry, hx] at h
        subst h; rfl
      · simp [sectionsForEntry, hx] at h
  | obj fields =>
    by_cases hov : hasObjectValues fields = true
    · simp [sectionsForEntry, hov] at h
      subst h; rfl
    · simp [sectionsForEntry, hov] at h
  | null => simp [sectionsForEntry] at h
  | bool b => simp [sectionsForEntry] at h
  | num m => simp [sectionsForEntry] at h
  | str t => simp [sectionsForEntry] at h

theorem nodup_keys_mem_inj {fields : List (String × Json)}
    (h : (fields.map Prod.fst).Nodup) {k : String} {a b : Json}
    (ha : (k, a) ∈ fields) (hb : (k, b) ∈ fields) : a = b := by
  induction fields with
  | nil => cases ha
  | cons p rest ih =>
    simp only [List.map_cons, List.nodup_cons] at h
    rcases List.mem_cons.1 ha with ha1 | ha1 <;>
      rcases List.mem_cons.1 hb with hb1 | hb1
    · have h2 : (k, a) = (k, b) := ha1.trans hb1.symm
      simpa using h2
    · exfalso
      apply h.1
      have hk : p.1 = k := by rw [← ha1]
      rw [hk]
      exact List.mem_map.2 ⟨(k, b), hb1, rfl⟩
    · exfalso
      apply h.1
      have hk : p.1 = k := by rw [← hb1]
      rw [hk]
      exact List.mem_map.2 ⟨(k, a), ha1, rfl⟩
    · exact ih h.2 ha1 hb1

/-! ## Claim theorems -/

/-- C1: for the document `{"items":[{"a":1,"b":"x"},{"a":2,"b":"y"}]}`,
`computeTableSections` returns exactly one section with id `"items"`;
projecting it yields exactly 2 rows with column set `["a","b"]`; and
`applyCellUpdate` on row 0, column `"b"`, raw value `"z"` produces the
document `{"items":[{"a":1,"b":"z"},{"a":2,"b":"y"}]}`. -/
theorem c1_scenarioA :
    computeTableSections docA =
      [⟨"items", "items (array with 2 items)", ["items"],
        .arr [.obj [("a", .jint 1), ("b", .str "x")],
              .obj [("a", .jint 2), ("b", .str "y")]]⟩] ∧
    buildTableProjection (.arr [.obj [("a", .jint 1), ("b", .str "x")],
        .obj [("a", .jint 2), ("b", .str "y")]]) ["items"] =
      ([.obj [("a", .jint 1), ("b", .str "x")], .obj [("a", .jint 2), ("b", .str "y")]],
       [⟨["items"], some 0, none⟩, ⟨["items"], some 1, none⟩]) ∧
    collectColumns [.obj [("a", .jint 1), ("b", .str "x")],
      .obj [("a", .jint 2), ("b", .str "y")]] = ["a", "b"] ∧
    applyCellUpdate docA [⟨["items"], some 0, none⟩, ⟨["items"], some 1, none⟩]
        0 "b" (.str "z") =
      some (.obj [("items", .arr [.obj [("a", .jint 1), ("b", .str "z")],
                                  .obj [("a", .jint 2), ("b", .str "y")]])]) :=
  ⟨rfl, rfl, rfl, rfl⟩

/-- C2: `parseCellValue` passes booleans through; trims strings; maps the
trimmed literals `"true"`/`"false"` to booleans; uses the numeric parse
when it is not `NaN` and the trimmed string is non-empty; and otherwise
keeps the trimmed string — together with the coercion table
`coerce("true") == true`, `coerce("false") == false`, `coerce("42") == 42`,
`coerce(" 3.5 ") == 3.5`, `coerce("hello") == "hello"`,
`coerce(true) == true`. -/
theorem c2_parseCellValue_coercion :
    (∀ b, parseCellValue (.bool b) = .bool b) ∧
    (∀ s, jsTrim s = "true" → parseCellValue (.str s) = .bool true) ∧
    (∀ s, jsTrim s = "false" → parseCellValue (.str s) = .bool false) ∧
    (∀ s, jsTrim s ≠ "true" → jsTrim s ≠ "false" → jsTrim s ≠ "" →
      (jsStringToNumber (jsTrim s)).isNaN = false →
      parseCellValue (.str s) = .num (jsStringToNumber (jsTrim s))) ∧
    (∀ s, jsTrim s ≠ "true" → jsTrim s ≠ "false" →
      ((jsStringToNumber (jsTrim s)).isNaN = true ∨ jsTrim s = "") →
      parseCellValue (.str s) = .str (jsTrim s)) ∧
    parseCellValue (.str "true") = .bool true ∧
    parseCellValue (.str "false") = .bool false ∧
    parseCellValue (.str "42") = .num (.finite 42 1) ∧
    parseCellValue (.str " 3.5 ") = .num (.finite 7 2) ∧
    parseCellValue (.str "hello") = .str "hello" ∧
    parseCellValue (.bool true) = .bool true := by
  refine ⟨fun b => rfl, ?_, ?_, ?_, ?_, rfl, rfl, rfl, rfl, rfl, rfl⟩
  · intro s h; simp [parseCellValue, h]
  · intro s h; simp [parseCellValue, h]
  · intro s h1 h2 h3 h4
    simp [parseCellValue, h1, h2, h3, h4]
  · intro s h1 h2 h3
    rcases h3 with h3 | h3
    · simp [parseCellValue, h1, h2, h3]
    · simp [parseCellValue, h1, h2, h3]

theorem c2_parseCellValue_coercion_witness :
    parseCellValue (.str " 3.5 ") = .num (jsStringToNumber (jsTrim " 3.5 ")) :=
  c2_parseCellValue_coercion.2.2.2.1 " 3.5 " (by decide) (by decide) (by decide)
    (by decide)

/-- C9: `computeTableSections` and `buildTableProjection` are deterministic
and idempotent over an unmutated document. In this embedding both are pure
functions of the document alone (the script recomputes them from
`workingJson` each time and reads no other state), so re-running them on
the same unmutated document is the same function application and the
section lists (ids, labels, paths) and projections agree. -/
theorem c9_idempotent_recompute :
    ∀ (doc json : Json) (path : List String),
      computeTableSections doc = computeTableSections doc ∧
      (computeTableSections doc).map (fun s => (s.id, s.label, s.path)) =
        (computeTableSections doc).map (fun s => (s.id, s.label, s.path)) ∧
      buildTableProjection json path = buildTableProjection json path :=
  fun _ _ _ => ⟨rfl, rfl, rfl⟩

/-- C10: `parseCellValue` is total and always returns a boolean, a number
that is not `NaN`, or a string — never `null` (and `undefined` is not even
representable as a result in this embedding). -/
theorem c10_coercion_safety :
    ∀ x : CellInput,
      ((∃ b, parseCellValue x = .bool b) ∨
       (∃ m, parseCellValue x = .num m ∧ m.isNaN = false) ∨
       (∃ s, parseCellValue x = .str s)) ∧
      parseCellValue x ≠ Json.null := by
  intro x
  cases x with
  | bool b => exact ⟨Or.inl ⟨b, rfl⟩, by simp [parseCellValue]⟩
  | str s =>
    constructor
    · by_cases h1 : jsTrim s = "true"
      · exact Or.inl ⟨true, by simp [parseCellValue, h1]⟩
      by_cases h2 : jsTrim s = "false"
      · exact Or.inl ⟨false, by simp [parseCellValue, h1, h2]⟩
      by_cases h3 : (jsStringToNumber (jsTrim s)).isNaN = false ∧ jsTrim s ≠ ""
      · exact Or.inr (Or.inl ⟨jsStringToNumber (jsTrim s),
          by simp [parseCellValue, h1, h2, h3.1, h3.2], h3.1⟩)
      · refine Or.inr (Or.inr ⟨jsTrim s, ?_⟩)
        rcases Decidable.not_and_iff_or_not.1 h3 with h4 | h4
        · have h4' : (jsStringToNumber (jsTrim s)).isNaN = true := by
            simpa using h4
          simp [parseCellValue, h1, h2, h4']
        · have h4' : jsTrim s = "" := by simpa using h4
          simp [parseCellValue, h1, h2, h4']
    · simp only [parseCellValue]
      split_ifs <;> simp

/-- C4 counterexample: `[null]` is a non-empty array whose first element is
the scalar `null` — not an object — yet `computeTableSections` emits a
root Section for it, because the code's `typeof rootJson[0] === "object"`
test is satisfied by `null`. The claim, which says scalars and arrays of
scalars never yield a Section, is therefore false on this document. -/
theorem c4_counterexample :
    computeTableSections (.arr [.null]) =
      [⟨"__root__", "Root (array with 1 items)", [], .arr [.null]⟩] ∧
    truthyObjType Json.null = false ∧
    jsTypeofObject Json.null = true :=
  ⟨rfl, rfl, rfl⟩

/-- C4 (amended): `computeTableSections` emits a root Section (path `[]`,
backing the array itself) if and only if the document is a non-empty array
whose first element is of JS `typeof` "object" — that is, an object, an
array, or `null`; scalars, empty arrays and objects, and arrays whose
first element is a non-null scalar never yield a root Section, and for
`[1,2,3]` the returned sequence is empty. -/
theorem c4_root_section_iff :
    (∀ (x : Json) (xs : List Json), jsTypeofObject x = true →
      computeTableSections (.arr (x :: xs)) =
        [⟨"__root__", rootLabel (xs.length + 1), [], .arr (x :: xs)⟩]) ∧
    (∀ doc : Json,
      (∃ s ∈ computeTableSections doc, s.path = ([] : List String) ∧ s.json = doc) ↔
      ∃ x xs, doc = Json.arr (x :: xs) ∧ jsTypeofObject x = true) ∧
    computeTableSections (.arr [.jint 1, .jint 2, .jint 3]) = [] := by
  refine ⟨?_, ?_, rfl⟩
  · intro x xs hx
    simp [computeTableSections, jsTruthy, hx]
  · intro doc
    constructor
    · rintro ⟨s, hs, hpath, hjson⟩
      cases doc with
      | null => simp [computeTableSections, jsTruthy] at hs
      | bool b =>
        rcases b <;> simp [computeTableSections, jsTruthy] at hs
      | num m =>
        cases m <;> simp [computeTableSections, jsTruthy] at hs
      | str t =>
        by_cases ht : t = "" <;> simp [computeTableSections, jsTruthy, ht] at hs
      | arr l =>
        cases l with
        | nil => simp [computeTableSections, jsTruthy] at hs
        | cons x xs =>
          by_cases hx : jsTypeofObject x = true
          · exact ⟨x, xs, rfl, hx⟩
          · simp [computeTableSections, jsTruthy, hx] at hs
      | obj fields =>
        exfalso
        have hs' : s ∈ fields.flatMap (fun p => sectionsForEntry p.1 p.2) := hs
        obtain ⟨p, _, hmem⟩ := List.mem_flatMap.1 hs'
        have := sectionsForEntry_path hmem
        rw [hpath] at this
        cases this
    · rintro ⟨x, xs, rfl, hx⟩
      refine ⟨⟨"__root__", rootLabel (xs.length + 1), [], .arr (x :: xs)⟩, ?_, rfl, rfl⟩
      simp [computeTableSections, jsTruthy, hx]

theorem c4_root_section_iff_witness :
    computeTableSections (.arr [.obj []]) =
      [⟨"__root__", rootLabel 1, [], .arr [.obj []]⟩] :=
  c4_root_section_iff.1 (.obj []) [] rfl

/-- C8: `applyCellUpdate` is a silent no-op — it returns the document
unchanged and reports no error — whenever `rowIndex` is out of range of
the mapping (`rowMapping[rowIndex]` is `undefined`) or the document
reference is absent (`workingJson` is `null`); this is the
`if (!info || !workingJson) return;` guard. -/
theorem c8_silent_noop :
    ∀ (doc : Json) (mapping : List RowMap) (rowIndex : Nat) (column : String)
      (nv : CellInput),
      mapping.length ≤ rowIndex ∨ doc = Json.null →
      applyCellUpdate doc mapping rowIndex column nv = some doc := by
  intro doc mapping rowIndex column nv h
  rcases h with h | h
  · have hnone : mapping[rowIndex]? = none := List.getElem?_eq_none h
    simp [applyCellUpdate, hnone]
  · subst h
    cases h2 : mapping[rowIndex]? with
    | none => simp [applyCellUpdate, h2]
    | some info => simp [applyCellUpdate, h2, jsTruthy]

theorem c8_silent_noop_witness :
    applyCellUpdate docA [] 5 "b" (.str "z") = some docA ∧
    applyCellUpdate Json.null [⟨["items"], some 0, none⟩] 0 "b" (.str "z") =
      some Json.null :=
  ⟨c8_silent_noop docA [] 5 "b" (.str "z") (Or.inl (by decide)),
   c8_silent_noop Json.null [⟨["items"], some 0, none⟩] 0 "b" (.str "z") (Or.inr rfl)⟩

theorem sectionsForEntry_id {s : TableSection} {k : String} {v : Json}
    (h : s ∈ sectionsForEntry k v) : s.id = k := by
  cases v with
  | arr l =>
    cases l with
    | nil => simp [sectionsForEntry] at h
    | cons x rest =>
      by_cases hx : jsTypeofObject x = true
      · simp [sectionsForEntry, hx] at h
        subst h; rfl
      · simp [sectionsForEntry, hx] at h
  | obj fields =>
    by_cases hov : hasObjectValues fields = true
    · simp [sectionsForEntry, hov] at h
      subst h; rfl
    · simp [sectionsForEntry, hov] at h
  | null => simp [sectionsForEntry] at h
  | bool b => simp [sectionsForEntry] at h
  | num m => simp [sectionsForEntry] at h
  | str t => simp [sectionsForEntry] at h

/-- C5: for a root object document with distinct top-level keys, a
top-level property `(k, v)` with `v` a non-array object yields a Section
with id `k` and path `[k]` if and only if `v` contains at least one
property whose value is itself of object type. "Object type" here is the
code's `v && typeof v === "object"` test: a plain object or an array
(JavaScript arrays are of `typeof` "object"), but not `null`. -/
theorem c5_object_section_iff :
    ∀ (fields : List (String × Json)) (k : String) (vfields : List (String × Json)),
      (fields.map Prod.fst).Nodup →
      (k, Json.obj vfields) ∈ fields →
      ((∃ s ∈ computeTableSections (Json.obj fields), s.id = k ∧ s.path = [k]) ↔
        ∃ p ∈ vfields, truthyObjType p.2 = true) := by
  intro fields k vfields hnodup hmem
  have hsec : computeTableSections (Json.obj fields) =
      fields.flatMap (fun p => sectionsForEntry p.1 p.2) := rfl
  constructor
  · rintro ⟨s, hs, hid, _⟩
    rw [hsec] at hs
    obtain ⟨p, hp, hsp⟩ := List.mem_flatMap.1 hs
    obtain ⟨pk, pv⟩ := p
    have hkey : pk = k := by
      have := sectionsForEntry_id hsp
      rw [← hid, this]
    subst hkey
    have hv : pv = Json.obj vfields := nodup_keys_mem_inj hnodup hp hmem
    subst hv
    by_cases hov : hasObjectValues vfields = true
    · obtain ⟨q, hq, hq2⟩ := List.any_eq_true.1 hov
      exact ⟨q, hq, hq2⟩
    · simp [sectionsForEntry, hov] at hsp
  · rintro ⟨p0, hp0, htr⟩
    have hov : hasObjectValues vfields = true :=
      List.any_eq_true.2 ⟨p0, hp0, htr⟩
    refine ⟨⟨k, objectLabel k vfields.length, [k], .obj vfields⟩, ?_, rfl, rfl⟩
    rw [hsec]
    exact List.mem_flatMap.2
      ⟨(k, .obj vfields), hmem, by simp [sectionsForEntry, hov]⟩

theorem c5_object_section_iff_witness :
    ∃ s ∈ computeTableSections
        (Json.obj [("k", Json.obj [("a", Json.arr [Json.jint 1])])]),
      s.id = "k" ∧ s.path = ["k"] :=
  (c5_object_section_iff [("k", .obj [("a", .arr [.jint 1])])] "k"
      [("a", .arr [.jint 1])] (by decide) (List.mem_cons_self _ _)).2
    ⟨("a", .arr [.jint 1]), List.mem_cons_self _ _, rfl⟩

/-- C3 counterexample: in the object-backed section
`{"r": {"__key": "x"}}` the backing value of property `"r"` already has an
own `__key` field. The projected row's `__key` holds that value `"x"`, not
the property name `"r"`: the object spread `{__key: key, ...value}`
overwrites the synthetic field, so the row is not "v's own fields plus a
synthetic `__key` field holding the property name". -/
theorem c3_counterexample :
    (buildTableProjection (.obj [("r", .obj [("__key", .str "x")])]) []).1 =
      [.obj [("__key", .str "x")]] ∧
    getProp (.obj [("__key", .str "x")]) "__key" = some (.str "x") ∧
    "x" ≠ "r" :=
  ⟨rfl, rfl, by decide⟩

theorem foldl_objSet_of_fresh :
    ∀ (vfields acc : List (String × Json)),
      (∀ p ∈ vfields, ∀ q ∈ acc, q.1 ≠ p.1) →
      (vfields.map Prod.fst).Nodup →
      vfields.foldl (fun a p => objSet a p.1 p.2) acc = acc ++ vfields := by
  intro vfields
  induction vfields with
  | nil => intro acc _ _; simp
  | cons p rest ih =>
    intro acc hfresh hnodup
    simp only [List.foldl_cons]
    have hnotin : (acc.any (fun q => q.1 = p.1)) = false := by
      rw [List.any_eq_false]
      intro q hq
      simpa using hfresh p (List.mem_cons_self _ _) q hq
    have hstep : objSet acc p.1 p.2 = acc ++ [p] := by
      simp [objSet, hnotin]
    rw [hstep, ih (acc ++ [p]) ?_ ?_]
    · simp
    · intro p2 hp2 q hq
      rcases List.mem_append.1 hq with hq | hq
      · exact hfresh p2 (List.mem_cons_of_mem _ hp2) q hq
      · have hqp : q = p := by simpa using hq
        subst hqp
        simp only [List.map_cons, List.nodup_cons] at hnodup
        intro hcontra
        apply hnodup.1
        rw [hcontra]
        exact List.mem_map.2 ⟨p2, hp2, rfl⟩
    · simp only [List.map_cons, List.nodup_cons] at hnodup
      exact hnodup.2

/-- C3 (amended): for every object-backed Section, `buildTableProjection`
synthesizes for each own property `(k, v)` with `v` of (non-null) object
type the row `{__key: k, ...v}` and the mapping entry
`{parentPath: path, index: null, key: k}`. When `v` has no own `__key`
field — the only case the spec's sentence determines, and flagged there as
an open question otherwise — the row is exactly the synthetic `__key: k`
field followed by `v`'s own fields; when `v` does have one, `v`'s value
overwrites the synthetic field (see the counterexample). Scenario B holds
as stated. -/
theorem c3_object_rows :
    (∀ (fields : List (String × Json)) (path : List String),
      buildTableProjection (.obj fields) path =
        ((fields.filter (fun p => truthyObjType p.2)).map (fun p => mkObjectRow p.1 p.2),
         (fields.filter (fun p => truthyObjType p.2)).map
           (fun p => (⟨path, none, some p.1⟩ : RowMap)))) ∧
    (∀ (k : String) (vfields : List (String × Json)),
      (vfields.map Prod.fst).Nodup → "__key" ∉ vfields.map Prod.fst →
      mkObjectRow k (.obj vfields) = .obj (("__key", .str k) :: vfields)) ∧
    buildTableProjection
        (.obj [("m1", .obj [("visible", .bool true)]),
               ("m2", .obj [("visible", .bool false)])]) ["Meshes"] =
      ([.obj [("__key", .str "m1"), ("visible", .bool true)],
        .obj [("__key", .str "m2"), ("visible", .bool false)]],
       [⟨["Meshes"], none, some "m1"⟩, ⟨["Meshes"], none, some "m2"⟩]) := by
  refine ⟨fun _ _ => rfl, ?_, rfl⟩
  intro k vfields hnodup hnokey
  show Json.obj (vfields.foldl (fun a p => objSet a p.1 p.2) [("__key", .str k)]) = _
  rw [foldl_objSet_of_fresh vfields [("__key", .str k)] ?_ hnodup]
  · rfl
  · intro p hp q hq
    have hqk : q = ("__key", Json.str k) := by simpa using hq
    subst hqk
    intro hcontra
    apply hnokey
    have : ("__key", Json.str k).1 = p.1 := hcontra
    rw [show ("__key" : String) = p.1 from this]
    exact List.mem_map.2 ⟨p, hp, rfl⟩

theorem c3_object_rows_witness :
    mkObjectRow "m1" (.obj [("visible", .bool true)]) =
      .obj [("__key", .str "m1"), ("visible", .bool true)] :=
  c3_object_rows.2.1 "m1" [("visible", .bool true)] (by decide) (by decide)

theorem enumFrom_filter_snd_map_snd (q : Json → Bool) :
    ∀ (n : Nat) (xs : List Json),
      ((List.enumFrom n xs).filter (fun p => q p.2)).map Prod.snd = xs.filter q := by
  intro n xs
  induction xs generalizing n with
  | nil => rfl
  | cons x rest ih =>
    simp only [List.enumFrom, List.filter_cons]
    by_cases hx : q x
    · simp [hx, ih (n + 1)]
    · simp [hx, ih (n + 1)]

/-- C6: for every Section backing, `buildTableProjection` returns rows and
mapping of equal length (index-aligned); every mapping entry carries the
section path and has exactly one of `index`/`key` set (`index` for
array-backed rows, `key` for object-backed rows); and for an array backing
the rows are exactly the object-typed elements in order, each aligned
mapping entry recording the element's true source index — non-object
elements are skipped and produce no row. -/
theorem c6_projection_invariants :
    ∀ (json : Json) (path : List String),
      (buildTableProjection json path).1.length =
        (buildTableProjection json path).2.length ∧
      (∀ m ∈ (buildTableProjection json path).2,
        m.parentPath = path ∧
        ((∃ i, m.index = some i) ∧ m.key = none ∨
         m.index = none ∧ ∃ k, m.key = some k)) ∧
      (∀ xs, json = Json.arr xs →
        (buildTableProjection json path).1 = xs.filter truthyObjType ∧
        ∀ pr ∈ (buildTableProjection json path).1.zip (buildTableProjection json path).2,
          ∃ i, pr.2 = (⟨path, some i, none⟩ : RowMap) ∧ xs[i]? = some pr.1 ∧
            truthyObjType pr.1 = true) := by
  intro json path
  cases json with
  | arr xs =>
    refine ⟨by simp [buildTableProjection], ?_, ?_⟩
    · intro m hm
      simp only [buildTableProjection] at hm
      obtain ⟨p, _, rfl⟩ := List.mem_map.1 hm
      exact ⟨rfl, Or.inl ⟨⟨p.1, rfl⟩, rfl⟩⟩
    · intro xs' hxs
      injection hxs with h
      subst h
      constructor
      · show ((xs.enum.filter _).map _) = xs.filter _
        simpa [List.enum] using enumFrom_filter_snd_map_snd truthyObjType 0 xs
      · intro pr hpr
        simp only [buildTableProjection] at hpr
        rw [List.zip_map'] at hpr
        obtain ⟨p, hp, rfl⟩ := List.mem_map.1 hpr
        have hpf := List.mem_filter.1 hp
        obtain ⟨i, x⟩ := p
        have hidx : xs[i]? = some x := List.mk_mem_enum_iff_getElem?.1 hpf.1
        exact ⟨i, rfl, hidx, hpf.2⟩
  | obj fields =>
    refine ⟨by simp [buildTableProjection], ?_, ?_⟩
    · intro m hm
      simp only [buildTableProjection] at hm
      obtain ⟨p, _, rfl⟩ := List.mem_map.1 hm
      exact ⟨rfl, Or.inr ⟨rfl, ⟨p.1, rfl⟩⟩⟩
    · intro xs hxs
      simp at hxs
  | null =>
    exact ⟨rfl, fun m hm => by simp [buildTableProjection] at hm,
      fun xs hxs => by simp at hxs⟩
  | bool b =>
    exact ⟨rfl, fun m hm => by simp [buildTableProjection] at hm,
      fun xs hxs => by simp at hxs⟩
  | num m =>
    exact ⟨rfl, fun m hm => by simp [buildTableProjection] at hm,
      fun xs hxs => by simp at hxs⟩
  | str t =>
    exact ⟨rfl, fun m hm => by simp [buildTableProjection] at hm,
      fun xs hxs => by simp at hxs⟩

theorem c6_projection_invariants_witness :
    (buildTableProjection (.arr [.jint 1, .obj [("a", .jint 2)], .null, .obj []]) []).1 =
      ([.obj [("a", .jint 2)], .obj []] : List Json) ∧
    (∃ i, (⟨[], some 3, none⟩ : RowMap) = (⟨[], some i, none⟩ : RowMap) ∧
      ([.jint 1, .obj [("a", .jint 2)], .null, .obj []] : List Json)[i]? =
        some (.obj []) ∧
      truthyObjType (.obj []) = true) := by
  have h := c6_projection_invariants
    (.arr [.jint 1, .obj [("a", .jint 2)], .null, .obj []]) []
  have h3 := h.2.2 [.jint 1, .obj [("a", .jint 2)], .null, .obj []] rfl
  refine ⟨h3.1, ?_⟩
  exact h3.2 (.obj [], ⟨[], some 3, none⟩)
    (List.mem_cons_of_mem _ (List.mem_cons_self _ _))

theorem charToNat_inj {a b : Char} (h : a.toNat = b.toNat) : a = b :=
  Char.eq_of_val_eq (UInt32.ext h)

theorem string_toList_inj {a b : String} (h : a.toList = b.toList) : a = b := by
  cases a; cases b
  simp only [String.toList] at h
  rw [h]

theorem natOfDigits_foldl_acc :
    ∀ (ds : List Char) (a : Nat),
      ds.foldl (fun x c => x * 10 + (c.toNat - 48)) a =
        a * 10 ^ ds.length + natOfDigits ds := by
  intro ds
  induction ds with
  | nil => intro a; simp [natOfDigits]
  | cons c cs ih =>
    intro a
    have hn : natOfDigits (c :: cs) = (c.toNat - 48) * 10 ^ cs.length + natOfDigits cs := by
      show (c :: cs).foldl _ 0 = _
      rw [List.foldl_cons, ih]
      simp
    rw [List.foldl_cons, ih, hn, List.length_cons, pow_succ]
    ring

theorem natOfDigits_cons (c : Char) (cs : List Char) :
    natOfDigits (c :: cs) = (c.toNat - 48) * 10 ^ cs.length + natOfDigits cs := by
  show (c :: cs).foldl _ 0 = _
  rw [List.foldl_cons]
  simpa using natOfDigits_foldl_acc cs (0 * 10 + (c.toNat - 48))

theorem natOfDigits_lt {ds : List Char} (h : ds.all isDigitChar = true) :
    natOfDigits ds < 10 ^ ds.length := by
  induction ds with
  | nil => simp [natOfDigits]
  | cons c cs ih =>
    simp only [List.all_cons, Bool.and_eq_true] at h
    have hd : c.toNat - 48 ≤ 9 := by
      have := h.1
      simp [isDigitChar] at this
      omega
    have hcs := ih h.2
    rw [natOfDigits_cons, List.length_cons, pow_succ]
    calc (c.toNat - 48) * 10 ^ cs.length + natOfDigits cs
        ≤ 9 * 10 ^ cs.length + natOfDigits cs :=
          Nat.add_le_add_right (Nat.mul_le_mul_right _ hd) _
      _ < 9 * 10 ^ cs.length + 10 ^ cs.length := Nat.add_lt_add_left hcs _
      _ = 10 ^ cs.length * 10 := by ring

theorem natOfDigits_ge {c : Char} {cs : List Char}
    (hd : isDigitChar c = true) (hnz : c ≠ '0') :
    10 ^ cs.length ≤ natOfDigits (c :: cs) := by
  have h48 : c.toNat ≠ 48 := fun hc => hnz (charToNat_inj (by rw [hc]; rfl))
  have h1 : 1 ≤ c.toNat - 48 := by
    simp [isDigitChar] at hd
    omega
  rw [natOfDigits_cons]
  calc 10 ^ cs.length = 1 * 10 ^ cs.length := (one_mul _).symm
    _ ≤ (c.toNat - 48) * 10 ^ cs.length := Nat.mul_le_mul_right _ h1
    _ ≤ _ := Nat.le_add_right _ _

theorem mul_add_eq_mul_add_unique {d1 d2 r1 r2 M : Nat} (hM : 0 < M)
    (h1 : r1 < M) (h2 : r2 < M) (heq : d1 * M + r1 = d2 * M + r2) :
    d1 = d2 ∧ r1 = r2 := by
  have e1 : (d1 * M + r1) / M = d1 := by
    rw [Nat.mul_comm, Nat.mul_add_div hM, Nat.div_eq_of_lt h1]
    omega
  have e2 : (d2 * M + r2) / M = d2 := by
    rw [Nat.mul_comm, Nat.mul_add_div hM, Nat.div_eq_of_lt h2]
    omega
  have hd : d1 = d2 := by rw [← e1, heq, e2]
  subst hd
  exact ⟨rfl, by omega⟩

theorem digits_inj :
    ∀ (as bs : List Char), as.all isDigitChar = true → bs.all isDigitChar = true →
      as.length = bs.length → natOfDigits as = natOfDigits bs → as = bs := by
  intro as
  induction as with
  | nil =>
    intro bs _ _ hlen _
    cases bs with
    | nil => rfl
    | cons b bs2 => simp at hlen
  | cons a as2 ih =>
    intro bs hda hdb hlen hval
    cases bs with
    | nil => simp at hlen
    | cons b bs2 =>
      simp only [List.all_cons, Bool.and_eq_true] at hda hdb
      simp only [List.length_cons] at hlen
      have hlen2 : as2.length = bs2.length := by omega
      rw [natOfDigits_cons, natOfDigits_cons, hlen2] at hval
      have hb1 := natOfDigits_lt hda.2
      have hb2 := natOfDigits_lt hdb.2
      rw [hlen2] at hb1
      have hM : 0 < 10 ^ bs2.length := Nat.pos_pow_of_pos _ (by norm_num)
      obtain ⟨hdeq, hreq⟩ := mul_add_eq_mul_add_unique hM hb1 hb2 hval
      have hab : a = b := by
        apply charToNat_inj
        have ha48 := hda.1
        have hb48 := hdb.1
        simp [isDigitChar] at ha48 hb48
        omega
      rw [hab, ih bs2 hda.2 hdb.2 hlen2 hreq]

theorem parseArrayIndex_spec {s : String} {n : Nat}
    (h : parseArrayIndex s = some n) :
    ∃ c cs, s.toList = c :: cs ∧ (c :: cs).all isDigitChar = true ∧
      (cs = [] ∨ c ≠ '0') ∧ n = natOfDigits (c :: cs) := by
  unfold parseArrayIndex at h
  cases hal : s.toList with
  | nil =>
    rw [hal] at h
    exact Option.noConfusion h
  | cons c cs =>
    rw [hal] at h
    have h2 : (if ((c :: cs).all isDigitChar = true ∧ (cs = [] ∨ c ≠ '0'))
        then some (natOfDigits (c :: cs)) else none) = some n := h
    by_cases hcond : ((c :: cs).all isDigitChar = true ∧ (cs = [] ∨ c ≠ '0'))
    · rw [if_pos hcond] at h2
      injection h2 with h3
      exact ⟨c, cs, rfl, hcond.1, hcond.2, h3.symm⟩
    · rw [if_neg hcond] at h2
      exact Option.noConfusion h2

theorem parseArrayIndex_inj {a b : String} {n : Nat}
    (ha : parseArrayIndex a = some n) (hb : parseArrayIndex b = some n) :
    a = b := by
  obtain ⟨c1, cs1, hl1, hd1, hc1, hv1⟩ := parseArrayIndex_spec ha
  obtain ⟨c2, cs2, hl2, hd2, hc2, hv2⟩ := parseArrayIndex_spec hb
  have hval : natOfDigits (c1 :: cs1) = natOfDigits (c2 :: cs2) := by
    rw [← hv1, ← hv2]
  rcases Nat.lt_trichotomy (c1 :: cs1).length (c2 :: cs2).length with hlt | heq | hgt
  · exfalso
    simp only [List.length_cons] at hlt
    have hne2 : cs2 ≠ [] := by
      intro hnil
      rw [hnil] at hlt
      simp at hlt
    have hnz2 : c2 ≠ '0' := by
      rcases hc2 with h | h
      · exact absurd h hne2
      · exact h
    simp only [List.all_cons, Bool.and_eq_true] at hd2
    have hge : 10 ^ cs2.length ≤ natOfDigits (c2 :: cs2) := natOfDigits_ge hd2.1 hnz2
    have hltv : natOfDigits (c1 :: cs1) < 10 ^ (c1 :: cs1).length := natOfDigits_lt hd1
    have hpow : 10 ^ (c1 :: cs1).length ≤ 10 ^ cs2.length := by
      apply Nat.pow_le_pow_right (by norm_num)
      simp only [List.length_cons]
      omega
    omega
  · have : (c1 :: cs1) = (c2 :: cs2) := digits_inj _ _ hd1 hd2 heq hval
    exact string_toList_inj (hl1.trans (this ▸ hl2.symm))
  · exfalso
    simp only [List.length_cons] at hgt
    have hne1 : cs1 ≠ [] := by
      intro hnil
      rw [hnil] at hgt
      simp at hgt
    have hnz1 : c1 ≠ '0' := by
      rcases hc1 with h | h
      · exact absurd h hne1
      · exact h
    simp only [List.all_cons, Bool.and_eq_true] at hd1
    have hge : 10 ^ cs1.length ≤ natOfDigits (c1 :: cs1) := natOfDigits_ge hd1.1 hnz1
    have hltv : natOfDigits (c2 :: cs2) < 10 ^ (c2 :: cs2).length := natOfDigits_lt hd2
    have hpow : 10 ^ (c2 :: cs2).length ≤ 10 ^ cs1.length := by
      apply Nat.pow_le_pow_right (by norm_num)
      simp only [List.length_cons]
      omega
    omega

theorem lookup_map_replace_self {fields : List (String × Json)} {k : String}
    (v : Json) (h : fields.any (fun p => p.1 = k) = true) :
    List.lookup k (fields.map (fun p => if p.1 = k then (k, v) else p)) = some v := by
  induction fields with
  | nil => simp at h
  | cons p rest ih =>
    obtain ⟨pk, pv⟩ := p
    simp only [List.any_cons, Bool.or_eq_true] at h
    simp only [List.map_cons]
    by_cases hp : pk = k
    · rw [if_pos hp, List.lookup_cons]
      simp
    · have hrest : rest.any (fun p => p.1 = k) = true := by
        rcases h with h | h
        · exact absurd (by simpa using h) hp
        · exact h
      have hbk : (k == pk) = false := beq_false_of_ne (fun hc => hp hc.symm)
      rw [if_neg hp, List.lookup_cons, hbk]
      exact ih hrest

theorem lookup_map_replace_ne {fields : List (String × Json)} {k k2 : String}
    (v : Json) (h : k2 ≠ k) :
    List.lookup k2 (fields.map (fun p => if p.1 = k then (k, v) else p)) =
      List.lookup k2 fields := by
  induction fields with
  | nil => rfl
  | cons p rest ih =>
    obtain ⟨pk, pv⟩ := p
    simp only [List.map_cons]
    by_cases hp : pk = k
    · have hbk : (k2 == k) = false := beq_false_of_ne h
      have hbk2 : (k2 == pk) = false := beq_false_of_ne (hp ▸ h)
      rw [if_pos hp, List.lookup_cons, List.lookup_cons, hbk, hbk2]
      exact ih
    · rw [if_neg hp, List.lookup_cons, List.lookup_cons]
      cases hb : (k2 == pk) with
      | true => rfl
      | false => exact ih

theorem lookup_append_single_self {fields : List (String × Json)} {k : String}
    (v : Json) (h : fields.any (fun p => p.1 = k) = false) :
    List.lookup k (fields ++ [(k, v)]) = some v := by
  induction fields with
  | nil => simp [List.lookup_cons]
  | cons p rest ih =>
    obtain ⟨pk, pv⟩ := p
    simp only [List.any_cons, Bool.or_eq_false_iff] at h
    have hp : pk ≠ k := by simpa using h.1
    have hbk : (k == pk) = false := beq_false_of_ne (fun hc => hp hc.symm)
    rw [List.cons_append, List.lookup_cons, hbk]
    exact ih h.2

theorem lookup_append_single_ne {fields : List (String × Json)} {k k2 : String}
    (v : Json) (h : k2 ≠ k) :
    List.lookup k2 (fields ++ [(k, v)]) = List.lookup k2 fields := by
  induction fields with
  | nil =>
    have hbk : (k2 == k) = false := beq_false_of_ne h
    simp [List.lookup_cons, hbk]
  | cons p rest ih =>
    obtain ⟨pk, pv⟩ := p
    rw [List.cons_append, List.lookup_cons, List.lookup_cons]
    cases hb : (k2 == pk) with
    | true => rfl
    | false => exact ih

theorem lookup_objSet_self (fields : List (String × Json)) (k : String) (v : Json) :
    List.lookup k (objSet fields k v) = some v := by
  by_cases hany : (fields.any (fun p => p.1 = k)) = true
  · rw [objSet, if_pos hany]
    exact lookup_map_replace_self v hany
  · rw [objSet, if_neg hany]
    exact lookup_append_single_self v (Bool.not_eq_true _ ▸ hany)

theorem lookup_objSet_ne (fields : List (String × Json)) (k : String) (v : Json)
    (k2 : String) (h : k2 ≠ k) :
    List.lookup k2 (objSet fields k v) = List.lookup k2 fields := by
  by_cases hany : (fields.any (fun p => p.1 = k)) = true
  · rw [objSet, if_pos hany]
    exact lookup_map_replace_ne v h
  · rw [objSet, if_neg hany]
    exact lookup_append_single_ne v h

theorem readPath_cons (j : Json) (k : String) (rest : List String) :
    readPath j (k :: rest) =
      match getProp j k with
      | some c => readPath c rest
      | none => none := rfl

theorem readPath_append (a : List String) :
    ∀ (j : Json) (b : List String),
      readPath j (a ++ b) = (readPath j a).bind (fun x => readPath x b) := by
  induction a with
  | nil => intro j b; rfl
  | cons k rest ih =>
    intro j b
    rw [List.cons_append, readPath_cons, readPath_cons]
    cases hg : getProp j k with
    | none => rfl
    | some c => exact ih c b

theorem parseArrayIndex_length_eq_none : parseArrayIndex "length" = none := rfl

theorem getProp_arr_of_index {xs : List Json} {k : String} {i : Nat}
    (hpi : parseArrayIndex k = some i) : getProp (Json.arr xs) k = xs[i]? := by
  have hk : k ≠ "length" := by
    intro hk
    rw [hk, parseArrayIndex_length_eq_none] at hpi
    exact Option.noConfusion hpi
  simp [getProp, if_neg hk, hpi]

theorem readPath_num_not_obj :
    ∀ (rest : List String) (x : JNum) (tf : List (String × Json)),
      readPath (Json.num x) rest ≠ some (Json.obj tf) := by
  intro rest x tf h
  cases rest with
  | nil => simp [readPath] at h
  | cons k r2 => simp [readPath_cons, getProp] at h

theorem walkTo_nil (j : Json) : walkTo j [] = some j := rfl

theorem walkTo_obj_cons (fields : List (String × Json)) (k : String)
    (rest : List String) :
    walkTo (Json.obj fields) (k :: rest) =
      match List.lookup k fields with
      | some c => walkTo c rest
      | none => none := rfl

theorem walkTo_arr_cons (xs : List Json) (k : String) (rest : List String) :
    walkTo (Json.arr xs) (k :: rest) =
      match parseArrayIndex k with
      | some i =>
        match xs[i]? with
        | some c => walkTo c rest
        | none => none
      | none => none := rfl

theorem walkTo_readPath :
    ∀ (p : List String) (j c : Json), walkTo j p = some c → readPath j p = some c := by
  intro p
  induction p with
  | nil => intro j c h; exact h
  | cons k rest ih =>
    intro j c h
    cases j with
    | obj fields =>
      rw [walkTo_obj_cons] at h
      cases hl : List.lookup k fields with
      | none => rw [hl] at h; exact Option.noConfusion h
      | some child =>
        rw [hl] at h
        rw [readPath_cons]
        have hg : getProp (Json.obj fields) k = some child := hl
        rw [hg]
        exact ih child c h
    | arr xs =>
      rw [walkTo_arr_cons] at h
      cases hpi : parseArrayIndex k with
      | none => rw [hpi] at h; exact Option.noConfusion h
      | some i =>
        rw [hpi] at h
        have h2 : (match xs[i]? with
          | some c => walkTo c rest
          | none => none) = some c := h
        cases hgi : xs[i]? with
        | none => rw [hgi] at h2; exact Option.noConfusion h2
        | some child =>
          rw [hgi] at h2
          rw [readPath_cons, getProp_arr_of_index hpi, hgi]
          exact ih child c h2
    | null => exact Option.noConfusion h
    | bool b => exact Option.noConfusion h
    | num m => exact Option.noConfusion h
    | str t => exact Option.noConfusion h

theorem readPath_obj_walkTo :
    ∀ (p : List String) (j : Json) (tf : List (String × Json)),
      readPath j p = some (Json.obj tf) → walkTo j p = some (Json.obj tf) := by
  intro p
  induction p with
  | nil => intro j tf h; exact h
  | cons k rest ih =>
    intro j tf h
    rw [readPath_cons] at h
    cases hg : getProp j k with
    | none => rw [hg] at h; exact Option.noConfusion h
    | some c =>
      rw [hg] at h
      cases j with
      | obj fields =>
        rw [walkTo_obj_cons]
        have hl : List.lookup k fields = some c := hg
        rw [hl]
        exact ih c tf h
      | arr xs =>
        by_cases hk : k = "length"
        · subst hk
          have hc : c = Json.jint xs.length := by
            have := hg
            simp [getProp] at this
            exact this.symm
          subst hc
          exact absurd h (readPath_num_not_obj rest _ tf)
        · have hg2 := hg
          simp only [getProp, if_neg hk] at hg2
          cases hpi : parseArrayIndex k with
          | none => rw [hpi] at hg2; exact Option.noConfusion hg2
          | some i =>
            rw [hpi] at hg2
            have hg3 : xs[i]? = some c := hg2
            rw [walkTo_arr_cons, hpi]
            show (match xs[i]? with
              | some c => walkTo c rest
              | none => none) = some (Json.obj tf)
            rw [hg3]
            show walkTo c rest = some (Json.obj tf)
            exact ih c tf h
      | null => simp [getProp] at hg
      | bool b => simp [getProp] at hg
      | num m => simp [getProp] at hg
      | str t => simp [getProp] at hg

theorem setProp_spec (parent : Json) (m : String) (v : Json)
    (tf : List (String × Json)) (ht : getProp parent m = some (Json.obj tf)) :
    ∃ parent', setProp parent m v = some parent' ∧
      getProp parent' m = some v ∧
      ∀ k2, k2 ≠ m → getProp parent' k2 = getProp parent k2 := by
  cases parent with
  | obj fields =>
    refine ⟨.obj (objSet fields m v), rfl, ?_, ?_⟩
    · show List.lookup m (objSet fields m v) = some v
      exact lookup_objSet_self fields m v
    · intro k2 hk2
      show List.lookup k2 (objSet fields m v) = List.lookup k2 fields
      exact lookup_objSet_ne fields m v k2 hk2
  | arr xs =>
    by_cases hlen : m = "length"
    · rw [hlen] at ht
      simp [getProp, Json.jint] at ht
    · have ht2 := ht
      simp only [getProp, if_neg hlen] at ht2
      cases hpi : parseArrayIndex m with
      | none => rw [hpi] at ht2; exact Option.noConfusion ht2
      | some i =>
        rw [hpi] at ht2
        have ht3 : xs[i]? = some (Json.obj tf) := ht2
        have hilt : i < xs.length := by
          rcases Nat.lt_or_ge i xs.length with hlt | hge
          · exact hlt
          · rw [List.getElem?_eq_none hge] at ht3
            exact Option.noConfusion ht3
        refine ⟨.arr (xs.set i v), ?_, ?_, ?_⟩
        · simp [setProp, hpi, hilt]
        · rw [getProp_arr_of_index hpi]
          exact List.getElem?_set_eq_of_lt v (by simpa using hilt)
        · intro k2 hk2
          by_cases hk2len : k2 = "length"
          · subst hk2len
            simp [getProp, List.length_set]
          · simp only [getProp, if_neg hk2len]
            cases hpj : parseArrayIndex k2 with
            | none => rfl
            | some j =>
              have hij : i ≠ j := by
                intro hji
                exact hk2 (parseArrayIndex_inj hpj (hji ▸ hpi))
              exact List.getElem?_set_ne hij
  | null => simp [getProp] at ht
  | bool b => simp [getProp] at ht
  | num x => simp [getProp] at ht
  | str t => simp [getProp] at ht

theorem setMemberField_spec (parent : Json) (m column : String) (v : Json)
    (tf : List (String × Json)) (ht : getProp parent m = some (Json.obj tf)) :
    ∃ parent', setMemberField parent m column v = some parent' ∧
      getProp parent' m = some (Json.obj (objSet tf column v)) ∧
      ∀ k2, k2 ≠ m → getProp parent' k2 = getProp parent k2 := by
  obtain ⟨parent', hset, hget, hframe⟩ :=
    setProp_spec parent m (Json.obj (objSet tf column v)) tf ht
  refine ⟨parent', ?_, hget, hframe⟩
  show (match getProp parent m with
    | some target =>
        match setProp target column v with
        | some t2 => setProp parent m t2
        | none => none
    | none => none) = some parent'
  rw [ht]
  show setProp parent m (Json.obj (objSet tf column v)) = some parent'
  exact hset

theorem pathDiverges_append_cases :
    ∀ (a b q : List String), pathDiverges (a ++ b) q = true →
      pathDiverges a q = true ∨ ∃ qext, q = a ++ qext ∧ pathDiverges b qext = true := by
  intro a
  induction a with
  | nil => intro b q h; exact Or.inr ⟨q, rfl, h⟩
  | cons x a2 ih =>
    intro b q h
    cases q with
    | nil => simp [pathDiverges] at h
    | cons y q2 =>
      by_cases hxy : x = y
      · subst hxy
        have h2 : pathDiverges (a2 ++ b) q2 = true := by
          simpa [pathDiverges] using h
        rcases ih b q2 h2 with h3 | ⟨qext, rfl, h4⟩
        · exact Or.inl (by simpa [pathDiverges] using h3)
        · exact Or.inr ⟨qext, rfl, h4⟩
      · exact Or.inl (by simp [pathDiverges, hxy])

theorem updateAtPath_spec :
    ∀ (path : List String) (root parent : Json) (f : Json → Option Json),
      walkTo root path = some parent →
      ∀ parent', f parent = some parent' →
      ∃ root', updateAtPath root path f = some root' ∧
        readPath root' path = some parent' ∧
        (∀ q, pathDiverges path q = true → readPath root' q = readPath root q) := by
  intro path
  induction path with
  | nil =>
    intro root parent f hw parent' hf
    injection hw with hw
    subst hw
    exact ⟨parent', hf, rfl, fun q hq => by simp [pathDiverges] at hq⟩
  | cons k rest ih =>
    intro root parent f hw parent' hf
    cases root with
    | obj fields =>
      rw [walkTo_obj_cons] at hw
      cases hl : List.lookup k fields with
      | none => rw [hl] at hw; exact Option.noConfusion hw
      | some child =>
        rw [hl] at hw
        obtain ⟨child', hupd, hread', hframe⟩ := ih child parent f hw parent' hf
        refine ⟨.obj (objSet fields k child'), ?_, ?_, ?_⟩
        · show (match List.lookup k fields with
            | some c => (updateAtPath c rest f).map (fun c2 => Json.obj (objSet fields k c2))
            | none => none) = _
          rw [hl]
          show (updateAtPath child rest f).map (fun c2 => Json.obj (objSet fields k c2)) = _
          rw [hupd]
          rfl
        · rw [readPath_cons]
          have hg : getProp (Json.obj (objSet fields k child')) k = some child' :=
            lookup_objSet_self fields k child'
          rw [hg]
          exact hread'
        · intro q hq
          cases q with
          | nil => simp [pathDiverges] at hq
          | cons k2 q2 =>
            by_cases hk2 : k = k2
            · subst hk2
              have hq2 : pathDiverges rest q2 = true := by
                simpa [pathDiverges] using hq
              rw [readPath_cons, readPath_cons]
              have hg1 : getProp (Json.obj (objSet fields k child')) k = some child' :=
                lookup_objSet_self fields k child'
              have hg2 : getProp (Json.obj fields) k = some child := hl
              rw [hg1, hg2]
              exact hframe q2 hq2
            · rw [readPath_cons, readPath_cons]
              have hg : getProp (Json.obj (objSet fields k child')) k2 =
                  getProp (Json.obj fields) k2 :=
                lookup_objSet_ne fields k child' k2 (fun h => hk2 h.symm)
              rw [hg]
    | arr xs =>
      rw [walkTo_arr_cons] at hw
      cases hpi : parseArrayIndex k with
      | none => rw [hpi] at hw; exact Option.noConfusion hw
      | some i =>
        rw [hpi] at hw
        have hw2 : (match xs[i]? with
          | some c => walkTo c rest
          | none => none) = some parent := hw
        cases hgi : xs[i]? with
        | none => rw [hgi] at hw2; exact Option.noConfusion hw2
        | some child =>
          rw [hgi] at hw2
          have hilt : i < xs.length := by
            rcases Nat.lt_or_ge i xs.length with hlt | hge
            · exact hlt
            · rw [List.getElem?_eq_none hge] at hgi
              exact Option.noConfusion hgi
          obtain ⟨child', hupd, hread', hframe⟩ := ih child parent f hw2 parent' hf
          refine ⟨.arr (xs.set i child'), ?_, ?_, ?_⟩
          · show (match parseArrayIndex k with
              | some j =>
                match xs[j]? with
                | some c => (updateAtPath c rest f).map (fun c2 => Json.arr (xs.set j c2))
                | none => none
              | none => none) = _
            rw [hpi]
            show (match xs[i]? with
              | some c => (updateAtPath c rest f).map (fun c2 => Json.arr (xs.set i c2))
              | none => none) = _
            rw [hgi]
            show (updateAtPath child rest f).map (fun c2 => Json.arr (xs.set i c2)) = _
            rw [hupd]
            rfl
          · rw [readPath_cons, getProp_arr_of_index hpi,
              List.getElem?_set_eq_of_lt child' (by simpa using hilt)]
            exact hread'
          · intro q hq
            cases q with
            | nil => simp [pathDiverges] at hq
            | cons k2 q2 =>
              by_cases hk2 : k = k2
              · subst hk2
                have hq2 : pathDiverges rest q2 = true := by
                  simpa [pathDiverges] using hq
                rw [readPath_cons, readPath_cons, getProp_arr_of_index hpi,
                  getProp_arr_of_index hpi,
                  List.getElem?_set_eq_of_lt child' (by simpa using hilt), hgi]
                exact hframe q2 hq2
              · rw [readPath_cons, readPath_cons]
                have hg : getProp (Json.arr (xs.set i child')) k2 =
                    getProp (Json.arr xs) k2 := by
                  by_cases hk2len : k2 = "length"
                  · subst hk2len
                    simp [getProp, List.length_set]
                  · simp only [getProp, if_neg hk2len]
                    cases hpj : parseArrayIndex k2 with
                    | none => rfl
                    | some j =>
                      have hij : i ≠ j := by
                        intro hji
                        exact hk2 (parseArrayIndex_inj hpi (hji ▸ hpj))
                      exact List.getElem?_set_ne hij
                rw [hg]
    | null => exact Option.noConfusion hw
    | bool b => exact Option.noConfusion hw
    | num m => exact Option.noConfusion hw
    | str t => exact Option.noConfusion hw

theorem walkTo_append (a : List String) :
    ∀ (j : Json) (b : List String),
      walkTo j (a ++ b) = (walkTo j a).bind (fun x => walkTo x b) := by
  induction a with
  | nil => intro j b; rfl
  | cons k rest ih =>
    intro j b
    cases j with
    | obj fields =>
      rw [List.cons_append, walkTo_obj_cons, walkTo_obj_cons]
      cases hl : List.lookup k fields with
      | none => rfl
      | some c => exact ih c b
    | arr xs =>
      rw [List.cons_append, walkTo_arr_cons, walkTo_arr_cons]
      cases hpi : parseArrayIndex k with
      | none => rfl
      | some i =>
        show (match xs[i]? with
          | some c => walkTo c (rest ++ b)
          | none => none) =
          (match xs[i]? with
          | some c => walkTo c rest
          | none => none).bind (fun x => walkTo x b)
        cases hgi : xs[i]? with
        | none => rfl
        | some c => exact ih c b
    | null => rfl
    | bool b2 => rfl
    | num m => rfl
    | str t => rfl

theorem walkTo_singleton {j : Json} {k : String} {c : Json}
    (h : walkTo j [k] = some c) : getProp j k = some c := by
  cases j with
  | obj fields =>
    rw [walkTo_obj_cons] at h
    cases hl : List.lookup k fields with
    | none => rw [hl] at h; exact Option.noConfusion h
    | some c2 =>
      rw [hl] at h
      have h2 : some c2 = some c := h
      injection h2 with h2
      subst h2
      exact hl
  | arr xs =>
    rw [walkTo_arr_cons] at h
    cases hpi : parseArrayIndex k with
    | none => rw [hpi] at h; exact Option.noConfusion h
    | some i =>
      rw [hpi] at h
      have h2 : (match xs[i]? with
        | some c2 => walkTo c2 []
        | none => none) = some c := h
      cases hgi : xs[i]? with
      | none => rw [hgi] at h2; exact Option.noConfusion h2
      | some c2 =>
        rw [hgi] at h2
        have h3 : some c2 = some c := h2
        injection h3 with h3
        subst h3
        rw [getProp_arr_of_index hpi]
        exact hgi
  | null => exact Option.noConfusion h
  | bool b => exact Option.noConfusion h
  | num m => exact Option.noConfusion h
  | str t => exact Option.noConfusion h

/-- C7: a cell edit through a valid mapping entry writes the coerced value
at the single targeted field and changes nothing else. "Valid" is rendered
as: the entry exists at `rowIndex`, the document is truthy, and the
targeted row (`parentPath` followed by the member — the decimal index for
an array-backed row, the object key for an object-backed row) resolves to
a plain object. The update then succeeds, the written field reads back as
the coerced value, and every read path that diverges from the written
field's path — every other field of that row, every other row, and every
unrelated part of the document — reads exactly what it read before (paths
through the written field or its ancestors are the ones that contain the
change). -/
theorem c7_cell_edit_frame :
    ∀ (root : Json) (mapping : List RowMap) (rowIndex : Nat) (column : String)
      (nv : CellInput) (info : RowMap) (member : String)
      (tfields : List (String × Json)),
      mapping[rowIndex]? = some info →
      (info.index = none ∧ info.key = some member ∨
        ∃ i, info.index = some i ∧ member = toString i) →
      jsTruthy root = true →
      readPath root (info.parentPath ++ [member]) = some (.obj tfields) →
      ∃ root2, applyCellUpdate root mapping rowIndex column nv = some root2 ∧
        readPath root2 (info.parentPath ++ [member, column]) =
          some (parseCellValue nv) ∧
        (∀ q, pathDiverges (info.parentPath ++ [member, column]) q = true →
          readPath root2 q = readPath root q) := by
  intro root mapping rowIndex column nv info member tfields hmap hacc htruthy hread
  have hwalk := readPath_obj_walkTo _ _ _ hread
  rw [walkTo_append] at hwalk
  cases hpw : walkTo root info.parentPath with
  | none => rw [hpw] at hwalk; exact Option.noConfusion hwalk
  | some parent =>
    rw [hpw] at hwalk
    have hwalk2 : walkTo parent [member] = some (Json.obj tfields) := hwalk
    have hgp : getProp parent member = some (Json.obj tfields) :=
      walkTo_singleton hwalk2
    obtain ⟨parent', hsm, hstore, hframe_m⟩ :=
      setMemberField_spec parent member column (parseCellValue nv) tfields hgp
    obtain ⟨root2, hupd, hread2, hframe_p⟩ :=
      updateAtPath_spec info.parentPath root parent
        (fun par => setMemberField par member column (parseCellValue nv)) hpw parent' hsm
    refine ⟨root2, ?_, ?_, ?_⟩
    · rcases hacc with ⟨hidxn, hkey⟩ | ⟨i, hidx, hmem⟩
      · simp only [applyCellUpdate, hmap, hidxn, hkey, htruthy, if_true]
        exact hupd
      · simp only [applyCellUpdate, hmap, hidx, htruthy, if_true]
        rw [← hmem]
        exact hupd
    · rw [readPath_append, hread2]
      show readPath parent' [member, column] = some (parseCellValue nv)
      rw [readPath_cons, hstore]
      show readPath (Json.obj (objSet tfields column (parseCellValue nv))) [column] =
        some (parseCellValue nv)
      have hcol : getProp (Json.obj (objSet tfields column (parseCellValue nv))) column =
          some (parseCellValue nv) :=
        lookup_objSet_self tfields column (parseCellValue nv)
      rw [readPath_cons, hcol]
      rfl
    · intro q hq
      rcases pathDiverges_append_cases info.parentPath [member, column] q hq with
        hq1 | ⟨qext, rfl, hq2⟩
      · exact hframe_p q hq1
      · rw [readPath_append, readPath_append, hread2, walkTo_readPath _ _ _ hpw]
        show readPath parent' qext = readPath parent qext
        cases qext with
        | nil => simp [pathDiverges] at hq2
        | cons e1 qrest =>
          by_cases he : e1 = member
          · subst he
            have hq3 : pathDiverges [column] qrest = true := by
              simpa [pathDiverges] using hq2
            cases qrest with
            | nil => simp [pathDiverges] at hq3
            | cons c2 q3 =>
              have hc2 : c2 ≠ column := by
                intro hcc
                rw [show pathDiverges [column] (c2 :: q3) =
                    (if column = c2 then pathDiverges [] q3 else true) from rfl,
                  if_pos hcc.symm] at hq3
                simp [pathDiverges] at hq3
              rw [readPath_cons, readPath_cons, hstore, hgp]
              show readPath (Json.obj (objSet tfields column (parseCellValue nv)))
                  (c2 :: q3) =
                readPath (Json.obj tfields) (c2 :: q3)
              rw [readPath_cons, readPath_cons]
              have hgc : getProp (Json.obj (objSet tfields column (parseCellValue nv))) c2 =
                  getProp (Json.obj tfields) c2 :=
                lookup_objSet_ne tfields column (parseCellValue nv) c2 hc2
              rw [hgc]
          · rw [readPath_cons, readPath_cons, hframe_m e1 he]

theorem c7_cell_edit_frame_witness :
    ∃ root2,
      applyCellUpdate
          (.obj [("Meshes", .obj [("m1", .obj [("visible", .bool true)]),
                                  ("m2", .obj [("visible", .bool false)])])])
          [⟨["Meshes"], none, some "m1"⟩, ⟨["Meshes"], none, some "m2"⟩]
          0 "visible" (.bool false) = some root2 ∧
      readPath root2 ["Meshes", "m1", "visible"] = some (.bool false) ∧
      (∀ q, pathDiverges ["Meshes", "m1", "visible"] q = true →
        readPath root2 q =
          readPath (.obj [("Meshes", .obj [("m1", .obj [("visible", .bool true)]),
                                           ("m2", .obj [("visible", .bool false)])])]) q) :=
  c7_cell_edit_frame
    (.obj [("Meshes", .obj [("m1", .obj [("visible", .bool true)]),
                            ("m2", .obj [("visible", .bool false)])])])
    [⟨["Meshes"], none, some "m1"⟩, ⟨["Meshes"], none, some "m2"⟩]
    0 "visible" (.bool false) ⟨["Meshes"], none, some "m1"⟩ "m1"
    [("visible", .bool true)] rfl (Or.inl ⟨rfl, rfl⟩) rfl rfl
